import Mathlib

/-!
Verification of the MiV-OS pipeline core and spike/burst routines.

Shallow embedding of:
  - src/miv/core/pipeline.py        (Pipeline.__init__, Pipeline.run, Pipeline.summarize)
  - src/miv/signal/spike/detection.py
      (ThresholdCutoff.__call__ wrappers, detect_threshold_crossings, get_next_minimum)
  - src/miv/statistics/burst.py     (burst)

Python floats on the numeric paths exercised here are exact index/interval
arithmetic, modelled with ℚ; array indices are ℕ.
-/

namespace MiV

/-! ## Data model for the pipeline executor (src/miv/core/pipeline.py)

A node in the execution order.  The executor only observes: the string form
of the node (used by print and by summarize), whether the node has a
`cacher` attribute (and then its `cache_policy` field, a string in the
source), and the behaviour of `node.run` which may raise.  A raised
exception is modelled by `fails = some e`; `fails = none` means the run of
the node returns normally. -/

structure Cacher where
  cache_policy : String
deriving DecidableEq, Repr

structure Node where
  tag : String
  cacher : Option Cacher
  fails : Option String
deriving DecidableEq, Repr

/-- Record of one invocation of `node.run(dry_run=dry_run, save_path=save_path)`
made by the executor loop, together with the cache policy the node carried at
the moment it was run. -/
structure RunEvent where
  tag : String
  cachePolicyAtRun : Option String
  dry_run : Bool
  save_path : String
deriving DecidableEq, Repr

/-- Observable outcome of `Pipeline.run`: the lines printed, the node-run
invocations in order, the exception propagated to the caller (if any), and
the state of `self.execution_order` after the call (the loop mutates the
cacher of each visited node in place). -/
structure RunResult where
  output : List String
  events : List RunEvent
  error : Option String
  nodes_after : List Node
deriving DecidableEq, Repr

/-- Embeds lines 23-24 of pipeline.py:
`if hasattr(node, "cacher"): node.cacher.cache_policy = "OFF" if no_cache else "AUTO"`. -/
def applyCache (n : Node) (no_cache : Bool) : Node :=
  match n.cacher with
  | some _ => ⟨n.tag, some ⟨if no_cache then "OFF" else "AUTO"⟩, n.fails⟩
  | none => n

/-- The string printed by `print("-"*46)` in pipeline.py (46 hyphens). -/
def dashes46 : String := "----------------------------------------------"

/-- Embeds the body of `Pipeline.run` (pipeline.py lines 20-29).  For each
node: optionally print `"Running: "` followed by the node (Python print
joins the two arguments with a space, hence two spaces), set the cache
policy when a cacher is present, then invoke `node.run`; an exception from
`node.run` propagates immediately, skipping the remaining nodes and the
final verbose block.  After a completed loop, the verbose block prints
`"Pipeline done:"`, calls `self.summarize()` WITHOUT printing its return
value (the string is discarded in the source), and prints the 46-dash rule. -/
def runLoop : List Node → String → Bool → Bool → Bool → RunResult
  | [], _, _, _, v =>
    ⟨if v then ["Pipeline done:", dashes46] else [], [], none, []⟩
  | n :: rest, sp, nc, dr, v =>
    let pre : List String := if v then ["Running:  " ++ n.tag] else []
    let n2 := applyCache n nc
    let ev : RunEvent := ⟨n2.tag, n2.cacher.map (fun c => c.cache_policy), dr, sp⟩
    match n2.fails with
    | some e => ⟨pre, [ev], some e, n2 :: rest⟩
    | none =>
      let r := runLoop rest sp nc dr v
      ⟨pre ++ r.output, ev :: r.events, r.error, n2 :: r.nodes_after⟩

/-! ### The dependency graph and topological sort

`Pipeline.__init__` calls `node.topological_sort()`, defined in
`miv.core.operator.chainable`, which is not among the provided sources. -/

/-- A DAG node handed to the Pipeline constructor: its observable executor
data together with its upstream dependencies. -/
inductive GNode where
  | mk (tag : String) (cacher : Option Cacher) (fails : Option String) (deps : List GNode)

def GNode.asNode : GNode → Node
  | .mk t c f _ => ⟨t, c, f⟩

mutual

/-- Modelled from the spec: `topological_sort` (miv.core.operator.chainable,
not in the provided sources) returns the ordered sequence of all nodes
reachable by walking dependency edges upstream from the receiver, ordered so
that the dependencies of a node precede it, visiting no node twice
(depth-first post-order with a visited set). -/
def GNode.topoAux : GNode → List Node → List Node
  | .mk t c f deps, acc =>
    let acc2 := GNode.topoListAux deps acc
    if acc2.any (fun n => n.tag = t) then acc2 else acc2 ++ [⟨t, c, f⟩]

/-- Modelled from the spec: folds `GNode.topoAux` over a dependency list. -/
def GNode.topoListAux : List GNode → List Node → List Node
  | [], acc => acc
  | g :: gs, acc => GNode.topoListAux gs (GNode.topoAux g acc)

end

/-- Modelled from the spec: the public `topological_sort` entry point. -/
def GNode.topological_sort (g : GNode) : List Node :=
  GNode.topoAux g []

/-- `Pipeline` holds exactly one attribute: `self.execution_order`. -/
structure Pipeline where
  execution_order : List Node
deriving DecidableEq, Repr

/-- Embeds `Pipeline.__init__`: the execution order is computed once, at
construction, as `node.topological_sort()`. -/
def Pipeline.init (node : GNode) : Pipeline :=
  ⟨node.topological_sort⟩

/-- Embeds `Pipeline.run(save_path, no_cache, dry_run, verbose)`. -/
def Pipeline.run (p : Pipeline) (save_path : String) (no_cache dry_run verbose : Bool) :
    RunResult :=
  runLoop p.execution_order save_path no_cache dry_run verbose

/-- Embeds a call of `Pipeline.run` with every argument left at its source
default: `save_path="./results"`, `no_cache=False`, `dry_run=False`,
`verbose=False` (pipeline.py lines 13-18). -/
def Pipeline.runDefault (p : Pipeline) : RunResult :=
  p.run "./results" false false false

/-- Embeds `Pipeline.summarize` (pipeline.py lines 31-36): a header line
followed by one line per node, `i` and the string form of the node joined
by a colon and a space, all joined with newlines. -/
def Pipeline.summarize (p : Pipeline) : String :=
  String.intercalate "\n"
    ("Execution order:" ::
      p.execution_order.enum.map (fun e => toString e.1 ++ ": " ++ e.2.tag))

/-! ## Spike detection (src/miv/signal/spike/detection.py)

A 1-dimensional signal is a `List ℚ`; sample values, sampling frequency,
thresholds and durations are exact rationals. -/

/-- A chunk of multi-channel signal data, as consumed by the undecorated
body of `ThresholdCutoff.__call__`. -/
structure Signal where
  data : List (List ℚ)
  timestamps : List ℚ
  rate : ℚ
deriving DecidableEq

/-- The declared aggregate output type of the detection operator: one spike
train (list of spike times) per channel. -/
structure Spikestamps where
  trains : List (List ℚ)
deriving DecidableEq

/-- Channel-wise concatenation of two per-channel collections; a channel
absent from one side contributes nothing to it. -/
def mergeTrains : List (List ℚ) → List (List ℚ) → List (List ℚ)
  | [], ys => ys
  | xs, [] => xs
  | x :: xs, y :: ys => (x ++ y) :: mergeTrains xs ys

/-- Merge the trains of two `Spikestamps` channel by channel. -/
def Spikestamps.merge (a b : Spikestamps) : Spikestamps :=
  ⟨mergeTrains a.trains b.trains⟩

namespace ThresholdCutoff

/-- Modelled from the spec: the decorator `wrap_generator_to_generator`
(miv.core.wrapper, not in the provided sources) applies the wrapped
per-chunk computation to each chunk of a lazy input sequence, yielding the
per-chunk results as a lazy sequence. -/
def wrap_generator_to_generator (f : Signal → Spikestamps) (chunks : List Signal) :
    List Spikestamps :=
  chunks.map f

/-- Modelled from the spec: the decorator `wrap_output_generator_collapse(Spikestamps)`
(miv.core.wrapper, not in the provided sources) collapses a lazy sequence of
per-chunk results into one aggregate `Spikestamps` by concatenating/merging
all yielded chunks before returning. -/
def wrap_output_generator_collapse (results : List Spikestamps) : Spikestamps :=
  results.foldl Spikestamps.merge ⟨[]⟩

/-- Embeds the decorated `ThresholdCutoff.__call__` as seen by a caller
handing it a lazy sequence of chunks: the two decorators around the
per-chunk body `f` (the undecorated method body, which maps one `Signal`
chunk to the `Spikestamps` detected in it). -/
def call (f : Signal → Spikestamps) (chunks : List Signal) : Spikestamps :=
  wrap_output_generator_collapse (wrap_generator_to_generator f chunks)

/-- Embeds `np.diff((signal <= threshold).astype(int) > 0).nonzero()[0]`
(detection.py, `detect_threshold_crossings`): `np.diff` on a boolean array
marks positions where consecutive elements differ, so the raw crossings are
the indices `i < len - 1` at which `signal[i] <= threshold` and
`signal[i+1] <= threshold` disagree. -/
def detect_crossings_raw (signal : List ℚ) (threshold : ℚ) : List ℕ :=
  (List.range (signal.length - 1)).filter
    (fun i => decide (signal.getD i 0 ≤ threshold) != decide (signal.getD (i + 1) 0 ≤ threshold))

/-- One step of the mask application
`threshold_crossings[np.insert(np.diff(threshold_crossings) >= dead_time_idx, 0, True)]`:
an element is kept when its distance to the PREVIOUS element of the current
array (kept or not) is at least `dtIdx`. -/
def onePassAux (dtIdx : ℚ) : ℕ → List ℕ → List ℕ
  | _, [] => []
  | prev, y :: ys =>
    if dtIdx ≤ (y : ℚ) - (prev : ℚ) then y :: onePassAux dtIdx y ys
    else onePassAux dtIdx y ys

/-- Apply the distance mask once; the first element is always kept
(`np.insert(..., 0, True)`). -/
def onePass (dtIdx : ℚ) : List ℕ → List ℕ
  | [] => []
  | x :: xs => x :: onePassAux dtIdx x xs

/-- Embeds the `while not np.all(distance_sufficient)` loop of
`detect_threshold_crossings`: repeatedly apply the mask until no element is
removed (the mask being all-true is exactly the filter removing nothing). -/
def deadTimeLoop (dtIdx : ℚ) (tc : List ℕ) : List ℕ :=
  if _h : (onePass dtIdx tc).length < tc.length then deadTimeLoop dtIdx (onePass dtIdx tc)
  else tc
termination_by tc.length
decreasing_by exact _h

/-- Embeds `ThresholdCutoff.detect_threshold_crossings(signal, fs, threshold, dead_time)`
(detection.py lines 148-181): raw boolean-diff crossings, then the repeated
dead-time filtering loop with `dead_time_idx = dead_time * fs`. -/
def detect_threshold_crossings (signal : List ℚ) (fs threshold dead_time : ℚ) : List ℕ :=
  deadTimeLoop (dead_time * fs) (detect_crossings_raw signal threshold)

/-- Fold behind `np.argmin`, tracking the best value seen, its index, and
the index of the next element; a strictly smaller value updates the best,
so ties keep the earliest index, as numpy does. -/
def argminGo : List ℚ → ℚ → ℕ → ℕ → ℕ
  | [], _, bi, _ => bi
  | y :: ys, bv, bi, i => if y < bv then argminGo ys y i (i + 1) else argminGo ys bv bi (i + 1)

/-- Embeds `np.argmin` on a 1-dimensional array: index of the FIRST minimum;
`none` models the ValueError numpy raises on an empty array. -/
def npArgmin : List ℚ → Option ℕ
  | [] => none
  | x :: xs => some (argminGo xs x 0 1)

/-- Embeds `ThresholdCutoff.get_next_minimum(signal, index, max_samples_to_search)`
(detection.py lines 183-208):
`search_end_idx = min(index + max_samples_to_search, signal.shape[0])`,
`min_idx = np.argmin(signal[index:search_end_idx])`, result `index + min_idx`. -/
def get_next_minimum (signal : List ℚ) (index max_samples_to_search : ℕ) : Option ℕ :=
  let search_end_idx := min (index + max_samples_to_search) signal.length
  match npArgmin ((signal.drop index).take (search_end_idx - index)) with
  | none => none
  | some m => some (index + m)

end ThresholdCutoff

/-! ## Burst statistics (src/miv/statistics/burst.py)

Spike trains are `List ℚ` of spike times; `spiketrains[channel].magnitude`
is the selected train.  `min_len` is used by the source only as an integer
slice bound and loop bound, so it is ℕ here. -/

/-- Sum of the slice `bs[i : i + k]` (`np.sum(burst_spike[i : i + min_spikes])`). -/
def windowSum (bs : List ℕ) (i k : ℕ) : ℕ :=
  ((bs.drop i).take k).sum

/-- Embeds the inner `while q > 0 and i + q + min_spikes <= len(burst_spike) - 1`
loop of `burst`: starting from `q = 1` the loop reads
`burst_spike[i + q + min_spikes - 1]`, extends `t` while it reads ones, and
stops at the first zero or when the guard bound `len(burst_spike) - 1` is
passed; so the final `t` is the length of the all-ones prefix of
`bs[i + k : len(bs) - 1]` (the last array entry is never read). -/
def extLen (bs : List ℕ) (i k : ℕ) : ℕ :=
  (((bs.drop (i + k)).take (bs.length - 1 - (i + k))).takeWhile (fun b => b == 1)).length

/-- Embeds `burst_spike[i : i + t + min_spikes] = 0`: slice assignment
zeroing `len` entries starting at `i`, clamped to the array. -/
def zeroRange (bs : List ℕ) (i len : ℕ) : List ℕ :=
  bs.enum.map (fun e => if i ≤ e.1 ∧ e.1 < i + len then 0 else e.2)

/-- Embeds one iteration of the outer `for i in np.arange(len(burst_spike) - min_spikes)`
loop of `burst`, threading the mutable `burst_spike` array and the `burst`
accumulator: when the window starting at `i` sums to `min_spikes`, compute
the extension `t`, append `[i, t + min_spikes]` and zero the counted span. -/
def burstStep (minSpikes : ℕ) (st : List ℕ × List (ℕ × ℕ)) (i : ℕ) : List ℕ × List (ℕ × ℕ) :=
  if windowSum st.1 i minSpikes = minSpikes then
    let t := extLen st.1 i minSpikes
    (zeroRange st.1 i (t + minSpikes), st.2 ++ [(i, t + minSpikes)])
  else st

/-- Embeds the whole outer loop of `burst`, returning the accumulated list
`burst` of `[i, t + min_spikes]` rows (the array `Q`). -/
def burstScan (minSpikes : ℕ) (bs0 : List ℕ) : List (ℕ × ℕ) :=
  ((List.range (bs0.length - minSpikes)).foldl (burstStep minSpikes) (bs0, [])).2

/-- The four arrays returned by `burst` on its non-degenerate branch. -/
structure BurstArrays where
  start_time : List ℚ
  burst_duration : List ℚ
  burst_len : List ℕ
  burst_rate : List ℚ
deriving DecidableEq, Repr

/-- Result of `burst`: either the scalar tuple `(0, 0, 0, 0)` (the
`np.sum(Q) == 0` branch) or the four arrays. -/
inductive BurstResult where
  | zeros
  | bursts (a : BurstArrays)
deriving DecidableEq, Repr

/-- Embeds
`burst_spike = (np.diff(spiketrains[channel].magnitude) <= min_isi).astype(np.int32)`:
the 0/1 indicator of inter-spike intervals at most `min_isi`. -/
def burstSpike (spiketrain : List ℚ) (min_isi : ℚ) : List ℕ :=
  (List.zipWith (fun b a => b - a) spiketrain.tail spiketrain).map
    (fun d => if d ≤ min_isi then 1 else 0)

/-- Embeds `burst(spiketrains, channel, min_isi, min_len)` (burst.py lines
52-85).  `Q = np.array(burst)`; when `np.sum(Q) == 0` (sum over both columns
of every row) the function returns the scalars `(0, 0, 0, 0)`, otherwise
`start_time = spike[Q[:,0]]`, `end_time = spike[Q[:,0] + Q[:,1]]`,
`burst_len = Q[:,1] + 1`, `burst_duration = end_time - start_time`,
`burst_rate = burst_len / burst_duration` (rational division here; numpy
float division by a zero duration is not exercised by the claims). -/
def burst (spiketrains : List (List ℚ)) (channel : ℕ) (min_isi : ℚ) (min_len : ℕ) :
    BurstResult :=
  let spike := spiketrains.getD channel []
  let q := burstScan min_len (burstSpike spike min_isi)
  if (q.map (fun e => e.1 + e.2)).sum = 0 then BurstResult.zeros
  else
    BurstResult.bursts
      ⟨q.map (fun e => spike.getD e.1 0),
       q.map (fun e => spike.getD (e.1 + e.2) 0 - spike.getD e.1 0),
       q.map (fun e => e.2 + 1),
       q.map (fun e => ((e.2 + 1 : ℕ) : ℚ) / (spike.getD (e.1 + e.2) 0 - spike.getD e.1 0))⟩

/-- Stated from the claim wording (C9), for comparison with the source: a
window of `min_len` consecutive inter-spike intervals, each at most
`min_isi`, exists somewhere in the selected spike train. -/
def isiWindowExists (spiketrains : List (List ℚ)) (channel : ℕ) (min_isi : ℚ)
    (min_len : ℕ) : Bool :=
  let isi := List.zipWith (fun b a => b - a) (spiketrains.getD channel []).tail
    (spiketrains.getD channel [])
  (List.range (isi.length + 1 - min_len)).any
    (fun i => ((isi.drop i).take min_len).all (fun d => decide (d ≤ min_isi)))

/-! ## Concrete instances used by closed theorems and witnesses -/

/-- A three-node chain A, B, C (C terminal), as a frozen execution order. -/
def pABC : Pipeline :=
  ⟨[⟨"A", none, none⟩, ⟨"B", none, none⟩, ⟨"C", none, none⟩]⟩

/-- A single-node pipeline used to evaluate the verbose output. -/
def pA : Pipeline := ⟨[⟨"A", none, none⟩]⟩

/-- A pipeline whose second node raises `"boom"`; the third is never run. -/
def pFail : Pipeline :=
  ⟨[⟨"A", none, none⟩, ⟨"B", some ⟨"AUTO"⟩, some "boom"⟩, ⟨"C", none, none⟩]⟩

/-- Mixed pipeline: one cache-bearing node, one plain node. -/
def pMixed : Pipeline :=
  ⟨[⟨"A", some ⟨"AUTO"⟩, none⟩, ⟨"B", none, none⟩]⟩

/-- Terminal graph node of the chain A → B → C, for construction claims. -/
def gABC : GNode :=
  GNode.mk "C" none none [GNode.mk "B" none none [GNode.mk "A" none none []]]

/-! ## Theorems -/

/-! ### Pipeline executor lemmas -/

theorem applyCache_tag (n : Node) (nc : Bool) : (applyCache n nc).tag = n.tag := by
  cases h : n.cacher <;> simp [applyCache, h]

theorem applyCache_fails (n : Node) (nc : Bool) : (applyCache n nc).fails = n.fails := by
  cases h : n.cacher <;> simp [applyCache, h]

theorem applyCache_policy (n : Node) (nc : Bool) :
    (applyCache n nc).cacher.map (fun c => c.cache_policy) =
      n.cacher.map (fun _ => if nc then "OFF" else "AUTO") := by
  cases h : n.cacher <;> simp [applyCache, h]

/-- The events recorded by the loop are, node by node and in order, exactly
the run invocations of a prefix of the node list, each carrying the cache
policy dictated by `no_cache`. -/
theorem runLoop_events (nodes : List Node) (sp : String) (nc dr v : Bool) :
    (runLoop nodes sp nc dr v).events =
      (nodes.take (runLoop nodes sp nc dr v).events.length).map
        (fun n =>
          (⟨n.tag, n.cacher.map (fun _ => if nc then "OFF" else "AUTO"), dr, sp⟩ : RunEvent)) := by
  induction nodes with
  | nil => simp [runLoop]
  | cons n rest ih =>
    cases h2 : (applyCache n nc).fails with
    | some e =>
      simp only [runLoop, h2]
      simp [applyCache_tag, applyCache_policy]
    | none =>
      simp only [runLoop, h2]
      simp only [List.length_cons, List.take_succ_cons, List.map_cons, List.cons.injEq]
      constructor
      · rw [RunEvent.mk.injEq]
        exact ⟨applyCache_tag n nc, applyCache_policy n nc, rfl, rfl⟩
      · exact ih

/-- If node `k` of the list raises `e` and every earlier node returns
normally, the loop propagates `e` and invokes exactly the first `k + 1`
node runs. -/
theorem runLoop_error (nodes : List Node) (sp : String) (nc dr v : Bool) :
    ∀ (k : ℕ) (e : String), k < nodes.length →
      (nodes.getD k ⟨"", none, none⟩).fails = some e →
      (∀ j, j < k → (nodes.getD j ⟨"", none, none⟩).fails = none) →
      (runLoop nodes sp nc dr v).error = some e ∧
        (runLoop nodes sp nc dr v).events.length = k + 1 := by
  induction nodes with
  | nil => intro k e hk _ _; simp at hk
  | cons n rest ih =>
    intro k e hk hfail hok
    cases k with
    | zero =>
      have hn : n.fails = some e := by simpa using hfail
      have h2 : (applyCache n nc).fails = some e := by rw [applyCache_fails]; exact hn
      simp [runLoop, h2]
    | succ k =>
      have hn : n.fails = none := by simpa using hok 0 (Nat.succ_pos k)
      have h2 : (applyCache n nc).fails = none := by rw [applyCache_fails]; exact hn
      have hrec := ih k e (by simpa using hk) (by simpa using hfail)
        (fun j hj => by simpa using hok (j + 1) (by omega))
      simp only [runLoop, h2]
      exact ⟨hrec.1, by simp [hrec.2]⟩

/-- The loop never reorders, adds or removes nodes: after the run the
execution order holds the same nodes (same tags, same positions); only the
cacher field of visited nodes may have been rewritten. -/
theorem runLoop_nodes_after (nodes : List Node) (sp : String) (nc dr v : Bool) :
    (runLoop nodes sp nc dr v).nodes_after.map Node.tag = nodes.map Node.tag := by
  induction nodes with
  | nil => simp [runLoop]
  | cons n rest ih =>
    cases h2 : (applyCache n nc).fails with
    | some e => simp [runLoop, h2, applyCache_tag]
    | none => simp [runLoop, h2, applyCache_tag, ih]

/-- Every node-run invocation made by the loop receives the save path the
loop was given. -/
theorem runLoop_save_paths (nodes : List Node) (sp : String) (nc dr v : Bool) :
    (runLoop nodes sp nc dr v).events.map (fun e => e.save_path) =
      List.replicate (runLoop nodes sp nc dr v).events.length sp := by
  induction nodes with
  | nil => simp [runLoop]
  | cons n rest ih =>
    cases h2 : (applyCache n nc).fails with
    | some e => simp [runLoop, h2]
    | none => simp [runLoop, h2, ih, List.replicate_succ]

/-! ### Claims C1 to C6 -/

/-- C1: the claim states that a verbose run emits, after the loop, the
execution order as enumerated `index: node` lines.  The source computes
`self.summarize()` but discards the returned string, so the verbose output
of a run of the single-node pipeline `A` consists only of the per-node
line, `"Pipeline done:"` and the 46-dash rule; no `"0: A"` line is
emitted.  This theorem evaluates the code at that failing input. -/
theorem C1_verbose_summary_not_printed :
    (pA.run "./results" false false true).output =
      ["Running:  A", "Pipeline done:", dashes46] ∧
    ¬ ("0: A" ∈ (pA.run "./results" false false true).output) := by
  constructor
  · rfl
  · decide

/-- C2: for every pipeline and flags, the run events are exactly the nodes
of (a prefix of) the execution order, in order, each run with its cache
policy controller set to OFF when `no_cache` is true and AUTO otherwise,
and with no policy (node unchanged) when the node has no controller. -/
theorem C2_cache_policy_per_node (p : Pipeline) (sp : String) (nc dr v : Bool) :
    (p.run sp nc dr v).events =
      (p.execution_order.take (p.run sp nc dr v).events.length).map
        (fun n =>
          (⟨n.tag, n.cacher.map (fun _ => if nc then "OFF" else "AUTO"), dr, sp⟩ : RunEvent)) :=
  runLoop_events p.execution_order sp nc dr v

/-- C3: if the node at index `k` of the execution order raises `e` and all
earlier nodes return normally, `Pipeline.run` propagates exactly `e` to its
caller and runs exactly the nodes at indices `0..k`: no later node is run
and no failure is swallowed. -/
theorem C3_failure_propagates (p : Pipeline) (sp : String) (nc dr v : Bool) (k : ℕ)
    (e : String) (hk : k < p.execution_order.length)
    (hfail : (p.execution_order.getD k ⟨"", none, none⟩).fails = some e)
    (hok : ∀ j, j < k → (p.execution_order.getD j ⟨"", none, none⟩).fails = none) :
    (p.run sp nc dr v).error = some e ∧ (p.run sp nc dr v).events.length = k + 1 :=
  runLoop_error p.execution_order sp nc dr v k e hk hfail hok

/-- Witness for C3 at the concrete pipeline whose second node raises
`"boom"`: the exception propagates and exactly two nodes are run. -/
theorem C3_failure_propagates_witness :
    (pFail.run "./results" false false false).error = some "boom" ∧
    (pFail.run "./results" false false false).events.length = 2 :=
  C3_failure_propagates pFail "./results" false false false 1 "boom" (by decide)
    (by decide) (by decide)

/-- C4: `summarize` returns the multi-line string made of the header
`"Execution order:"` followed by one `index: node` line per node of the
execution order, joined by newlines; on the 3-node chain A, B, C this is
exactly the four claimed lines. -/
theorem C4_summarize_format (p : Pipeline) :
    p.summarize =
      String.intercalate "\n"
        ("Execution order:" ::
          p.execution_order.enum.map (fun e => toString e.1 ++ ": " ++ e.2.tag)) ∧
    pABC.summarize = "Execution order:\n0: A\n1: B\n2: C" :=
  ⟨rfl, by rfl⟩

/-- C5: the execution order is computed once, at construction, as the
topological sort rooted at the terminal node; `run` and `summarize` are
functions of that frozen order alone (no recomputation), and running leaves
the order intact: the node list after a run has the same nodes at the same
positions. -/
theorem C5_order_frozen (g : GNode) (sp : String) (nc dr v : Bool) :
    (Pipeline.init g).execution_order = g.topological_sort ∧
    (∀ p : Pipeline, p.run sp nc dr v = runLoop p.execution_order sp nc dr v ∧
      p.summarize =
        String.intercalate "\n"
          ("Execution order:" ::
            p.execution_order.enum.map (fun e => toString e.1 ++ ": " ++ e.2.tag))) ∧
    ((Pipeline.init g).run sp nc dr v).nodes_after.map Node.tag =
      (Pipeline.init g).execution_order.map Node.tag :=
  ⟨rfl, fun _ => ⟨rfl, rfl⟩,
    runLoop_nodes_after (Pipeline.init g).execution_order sp nc dr v⟩

/-- C6: a call of `run` with no arguments uses `save_path = "./results"`
(the source default), and that save path is the one handed to every node
run the call makes. -/
theorem C6_save_path_default (p : Pipeline) :
    p.runDefault = p.run "./results" false false false ∧
    p.runDefault.events.map (fun e => e.save_path) =
      List.replicate p.runDefault.events.length "./results" :=
  ⟨rfl, runLoop_save_paths p.execution_order "./results" false false false⟩

/-! ### Generator collapse lemmas (C7) -/

theorem getD_mergeTrains (a : List (List ℚ)) :
    ∀ (b : List (List ℚ)) (c : ℕ),
      (mergeTrains a b).getD c [] = a.getD c [] ++ b.getD c [] := by
  induction a with
  | nil => intro b c; cases b <;> simp [mergeTrains]
  | cons x xs ih =>
    intro b c
    cases b with
    | nil => simp [mergeTrains]
    | cons y ys =>
      cases c with
      | zero => simp [mergeTrains]
      | succ c => simpa [mergeTrains] using ih ys c

theorem foldl_merge_getD (rs : List Spikestamps) :
    ∀ (acc : Spikestamps) (c : ℕ),
      (rs.foldl Spikestamps.merge acc).trains.getD c [] =
        acc.trains.getD c [] ++ (rs.map (fun s => s.trains.getD c [])).flatten := by
  induction rs with
  | nil => intro acc c; simp
  | cons r rs ih =>
    intro acc c
    simp only [List.foldl_cons, List.map_cons, List.flatten_cons]
    rw [ih (acc.merge r) c]
    show (mergeTrains acc.trains r.trains).getD c [] ++ _ = _
    rw [getD_mergeTrains, List.append_assoc]

/-- C7: applied to a lazy sequence of chunks, the decorated operator returns
one aggregate `Spikestamps` in which every channel holds exactly the
concatenation, chunk by chunk in order, of the per-chunk results yielded by
the wrapped computation; nothing yielded is dropped and no raw generator is
returned. -/
theorem C7_generator_collapse (f : Signal → Spikestamps) (chunks : List Signal) (c : ℕ) :
    (ThresholdCutoff.call f chunks).trains.getD c [] =
      ((ThresholdCutoff.wrap_generator_to_generator f chunks).map
        (fun s => s.trains.getD c [])).flatten := by
  show ((chunks.map f).foldl Spikestamps.merge ⟨[]⟩).trains.getD c [] = _
  rw [foldl_merge_getD]
  simp [ThresholdCutoff.wrap_generator_to_generator]

/-! ### Threshold crossing lemmas (C8) -/

namespace ThresholdCutoff

/-- `onePassAux` returns a sublist of its input. -/
theorem onePassAux_sublist (dtIdx : ℚ) (prev : ℕ) (l : List ℕ) :
    List.Sublist (onePassAux dtIdx prev l) l := by
  induction l generalizing prev with
  | nil => simp [onePassAux]
  | cons y ys ih =>
    simp only [onePassAux]
    split
    · exact List.Sublist.cons₂ y (ih y)
    · exact List.Sublist.cons y (ih y)

/-- `onePass` returns a sublist of its input. -/
theorem onePass_sublist (dtIdx : ℚ) (l : List ℕ) : List.Sublist (onePass dtIdx l) l := by
  cases l with
  | nil => simp [onePass]
  | cons x xs => exact List.Sublist.cons₂ x (onePassAux_sublist dtIdx x xs)

theorem deadTimeLoop_sublist_aux (d : ℚ) :
    ∀ (n : ℕ) (tc : List ℕ), tc.length ≤ n → List.Sublist (deadTimeLoop d tc) tc := by
  intro n
  induction n with
  | zero =>
    intro tc h
    rw [deadTimeLoop]
    split
    · next h2 => have := (onePass_sublist d tc).length_le; omega
    · exact List.Sublist.refl tc
  | succ m ih =>
    intro tc h
    rw [deadTimeLoop]
    split
    · next h2 => exact (ih (onePass d tc) (by omega)).trans (onePass_sublist d tc)
    · exact List.Sublist.refl tc

/-- The dead-time filtering loop returns a sublist of the raw crossings. -/
theorem deadTimeLoop_sublist (d : ℚ) (tc : List ℕ) :
    List.Sublist (deadTimeLoop d tc) tc :=
  deadTimeLoop_sublist_aux d tc.length tc (le_refl _)

theorem deadTimeLoop_fix_aux (d : ℚ) :
    ∀ (n : ℕ) (tc : List ℕ), tc.length ≤ n →
      onePass d (deadTimeLoop d tc) = deadTimeLoop d tc := by
  intro n
  induction n with
  | zero =>
    intro tc h
    rw [deadTimeLoop]
    split
    · next h2 => exfalso; have := (onePass_sublist d tc).length_le; omega
    · next h2 =>
      exact (onePass_sublist d tc).eq_of_length
        (Nat.le_antisymm (onePass_sublist d tc).length_le (Nat.le_of_not_lt h2))
  | succ m ih =>
    intro tc h
    rw [deadTimeLoop]
    split
    · next h2 => exact ih (onePass d tc) (by omega)
    · next h2 =>
      exact (onePass_sublist d tc).eq_of_length
        (Nat.le_antisymm (onePass_sublist d tc).length_le (Nat.le_of_not_lt h2))

/-- The loop exits only when applying the mask once more removes nothing. -/
theorem deadTimeLoop_fix (d : ℚ) (tc : List ℕ) :
    onePass d (deadTimeLoop d tc) = deadTimeLoop d tc :=
  deadTimeLoop_fix_aux d tc.length tc (le_refl _)

/-- A list that the mask pass leaves unchanged satisfies the dead-time gap
between every consecutive pair, linked from the previous element. -/
theorem onePassAux_fix_chain (d : ℚ) :
    ∀ (l : List ℕ) (p : ℕ), onePassAux d p l = l →
      List.Chain (fun a b : ℕ => d ≤ (b : ℚ) - (a : ℚ)) p l := by
  intro l
  induction l with
  | nil => intro p _; exact List.Chain.nil
  | cons y ys ih =>
    intro p h
    rw [onePassAux] at h
    split at h
    · next hc =>
      have h2 : onePassAux d y ys = ys := by
        have := List.cons.inj h
        exact this.2
      exact List.Chain.cons hc (ih y h2)
    · next hc =>
      exfalso
      have hs := (onePassAux_sublist d y ys).length_le
      rw [h] at hs
      simp at hs

/-- A fixed point of the mask application satisfies the dead-time gap
between every pair of consecutive elements. -/
theorem onePass_fix_chain (d : ℚ) (l : List ℕ) (h : onePass d l = l) :
    List.Chain' (fun a b : ℕ => d ≤ (b : ℚ) - (a : ℚ)) l := by
  cases l with
  | nil => simp
  | cons x xs =>
    rw [onePass] at h
    have h2 : onePassAux d x xs = xs := (List.cons.inj h).2
    exact onePassAux_fix_chain d xs x h2

end ThresholdCutoff

/-- Two chain conditions on the same list conjoin. -/
theorem chain'_and {α : Type} {R S : α → α → Prop} :
    ∀ {l : List α}, List.Chain' R l → List.Chain' S l →
      List.Chain' (fun a b => R a b ∧ S a b) l := by
  intro l
  induction l with
  | nil => intro _ _; simp
  | cons x xs ih =>
    cases xs with
    | nil => intro _ _; simp
    | cons y ys =>
      intro hR hS
      rw [List.chain'_cons] at hR hS ⊢
      exact ⟨⟨hR.1, hS.1⟩, ih hR.2 hS.2⟩

/-- C8: the index array returned by `detect_threshold_crossings` is
strictly increasing and every pair of consecutive returned indices is at
least `dead_time * fs` samples apart: the repeated filtering loop enforces
the dead-time constraint on the whole output. -/
theorem C8_dead_time_enforced (signal : List ℚ) (fs threshold dead_time : ℚ)
    (_hfs : 0 < fs) (_hdt : 0 ≤ dead_time) :
    List.Chain'
      (fun a b : ℕ => a < b ∧ dead_time * fs ≤ (b : ℚ) - (a : ℚ))
      (ThresholdCutoff.detect_threshold_crossings signal fs threshold dead_time) := by
  have hraw : (ThresholdCutoff.detect_crossings_raw signal threshold).Pairwise (· < ·) :=
    List.Pairwise.sublist (List.filter_sublist _) (List.pairwise_lt_range _)
  have hsub := ThresholdCutoff.deadTimeLoop_sublist (dead_time * fs)
    (ThresholdCutoff.detect_crossings_raw signal threshold)
  have hlt : List.Chain' (fun a b : ℕ => a < b)
      (ThresholdCutoff.detect_threshold_crossings signal fs threshold dead_time) :=
    (List.Pairwise.sublist hsub hraw).chain'
  have hgap := ThresholdCutoff.onePass_fix_chain (dead_time * fs)
    (ThresholdCutoff.detect_threshold_crossings signal fs threshold dead_time)
    (ThresholdCutoff.deadTimeLoop_fix (dead_time * fs) _)
  exact chain'_and hlt hgap

/-- Witness for C8 on a concrete signal, sampling rate 1 Hz and zero dead
time: hypotheses hold and the returned crossings satisfy the chain. -/
theorem C8_dead_time_enforced_witness :
    (0 : ℚ) < 1 ∧ (0 : ℚ) ≤ 0 ∧
      List.Chain' (fun a b : ℕ => a < b ∧ (0 : ℚ) * 1 ≤ (b : ℚ) - (a : ℚ))
        (ThresholdCutoff.detect_threshold_crossings [0, -10, -10, 0, -10] 1 (-5) 0) :=
  ⟨by norm_num, le_refl 0,
    C8_dead_time_enforced [0, -10, -10, 0, -10] 1 (-5) 0 (by norm_num) (le_refl 0)⟩

/-! ### Spike alignment lemmas (C10) -/

theorem argminGo_lt (ys : List ℚ) :
    ∀ (bv : ℚ) (bi i : ℕ), bi < i → ThresholdCutoff.argminGo ys bv bi i < i + ys.length := by
  induction ys with
  | nil => intro bv bi i h; simpa [ThresholdCutoff.argminGo] using h
  | cons y ys ih =>
    intro bv bi i h
    rw [ThresholdCutoff.argminGo]
    split
    · have := ih y i (i + 1) (Nat.lt_succ_self i)
      simp only [List.length_cons]
      omega
    · have := ih bv bi (i + 1) (by omega)
      simp only [List.length_cons]
      omega

theorem npArgmin_some (l : List ℚ) (h : l ≠ []) :
    ∃ k, ThresholdCutoff.npArgmin l = some k ∧ k < l.length := by
  cases l with
  | nil => exact absurd rfl h
  | cons x xs =>
    refine ⟨ThresholdCutoff.argminGo xs x 0 1, rfl, ?_⟩
    have := argminGo_lt xs x 0 1 Nat.one_pos
    simpa [Nat.add_comm] using this

/-- C10: for an in-bounds starting index and a positive search budget,
`get_next_minimum` succeeds and the aligned position lies in the half-open
window from the crossing index to `min(index + max_samples_to_search, len)`:
it never precedes the crossing and never leaves the window or the signal. -/
theorem C10_next_minimum_in_window (signal : List ℚ) (index ms : ℕ)
    (h1 : index < signal.length) (h2 : 1 ≤ ms) :
    ∃ r, ThresholdCutoff.get_next_minimum signal index ms = some r ∧
      index ≤ r ∧ r < min (index + ms) signal.length := by
  unfold ThresholdCutoff.get_next_minimum
  have hse1 : index < min (index + ms) signal.length := lt_min (by omega) h1
  have hse2 : min (index + ms) signal.length ≤ signal.length := min_le_right _ _
  have hlen : ((signal.drop index).take (min (index + ms) signal.length - index)).length =
      min (index + ms) signal.length - index := by
    rw [List.length_take, List.length_drop]
    omega
  have hne : (signal.drop index).take (min (index + ms) signal.length - index) ≠ [] := by
    intro h0
    rw [h0] at hlen
    simp at hlen
    omega
  obtain ⟨k, hk, hklt⟩ := npArgmin_some _ hne
  rw [hlen] at hklt
  simp only [hk]
  exact ⟨index + k, rfl, Nat.le_add_right _ _, by omega⟩

/-- Witness for C10 at `signal = [3, 1, 2]`, `index = 0`,
`max_samples_to_search = 2`. -/
theorem C10_next_minimum_in_window_witness :
    ∃ r, ThresholdCutoff.get_next_minimum [3, 1, 2] 0 2 = some r ∧
      0 ≤ r ∧ r < min (0 + 2) ([(3 : ℚ), 1, 2].length) :=
  C10_next_minimum_in_window [3, 1, 2] 0 2 (by decide) (by omega)

/-! ### Burst detection lemmas (C9) -/

/-- The accumulator of the outer burst loop only grows: rows already
appended are never removed or changed. -/
theorem burstFold_acc_prefix (k : ℕ) :
    ∀ (idxs : List ℕ) (st : List ℕ × List (ℕ × ℕ)),
      ∃ ext, (idxs.foldl (burstStep k) st).2 = st.2 ++ ext := by
  intro idxs
  induction idxs with
  | nil => intro st; exact ⟨[], by simp⟩
  | cons i idxs ih =>
    intro st
    simp only [List.foldl_cons]
    obtain ⟨ext, hext⟩ := ih (burstStep k st i)
    by_cases hc : windowSum st.1 i k = k
    · refine ⟨(i, extLen st.1 i k + k) :: ext, ?_⟩
      rw [hext]
      simp [burstStep, hc]
    · refine ⟨ext, ?_⟩
      rw [hext]
      simp [burstStep, hc]

/-- Every row the outer burst loop accumulates records a spike span of at
least `min_spikes` intervals in its second component. -/
theorem burstFold_snd_ge (k : ℕ) :
    ∀ (idxs : List ℕ) (st : List ℕ × List (ℕ × ℕ)),
      (∀ e ∈ st.2, k ≤ e.2) → ∀ e ∈ (idxs.foldl (burstStep k) st).2, k ≤ e.2 := by
  intro idxs
  induction idxs with
  | nil => intro st h; exact h
  | cons i idxs ih =>
    intro st h
    simp only [List.foldl_cons]
    refine ih (burstStep k st i) ?_
    intro e he
    by_cases hc : windowSum st.1 i k = k
    · simp only [burstStep, hc, if_pos] at he
      rcases List.mem_append.mp he with hold | hnew
      · exact h e hold
      · have : e = (i, extLen st.1 i k + k) := by simpa using hnew
        rw [this]
        exact Nat.le_add_left k _
    · simp only [burstStep, hc, if_neg, not_false_iff] at he
      exact h e he

/-- If no window of the pristine indicator array fires, the loop leaves the
state untouched and accumulates nothing. -/
theorem burstFold_nofire (k : ℕ) :
    ∀ (idxs : List ℕ) (bs : List ℕ) (acc : List (ℕ × ℕ)),
      (∀ i ∈ idxs, windowSum bs i k ≠ k) →
      idxs.foldl (burstStep k) (bs, acc) = (bs, acc) := by
  intro idxs
  induction idxs with
  | nil => intro bs acc _; rfl
  | cons i idxs ih =>
    intro bs acc h
    simp only [List.foldl_cons]
    have hstep : burstStep k (bs, acc) i = (bs, acc) := by
      simp [burstStep, h i (List.mem_cons_self i idxs)]
    rw [hstep]
    exact ih bs acc (fun j hj => h j (List.mem_cons_of_mem i hj))

/-- If some window of the pristine indicator array fires, the loop
accumulates at least one row: the first firing index is reached with the
array still pristine (no earlier window fired, so nothing was zeroed), and
rows are never removed afterwards. -/
theorem burstFold_fire (k : ℕ) :
    ∀ (idxs : List ℕ) (bs : List ℕ) (acc : List (ℕ × ℕ)),
      (∃ i ∈ idxs, windowSum bs i k = k) →
      (idxs.foldl (burstStep k) (bs, acc)).2 ≠ [] := by
  intro idxs
  induction idxs with
  | nil => intro bs acc h; simp at h
  | cons i idxs ih =>
    intro bs acc h
    obtain ⟨j, hj, hfire⟩ := h
    by_cases hc : windowSum bs i k = k
    · simp only [List.foldl_cons]
      have hstep : burstStep k (bs, acc) i =
          (zeroRange bs i (extLen bs i k + k), acc ++ [(i, extLen bs i k + k)]) := by
        simp [burstStep, hc]
      rw [hstep]
      obtain ⟨ext, hext⟩ := burstFold_acc_prefix k idxs
        (zeroRange bs i (extLen bs i k + k), acc ++ [(i, extLen bs i k + k)])
      rw [hext]
      simp
    · have hji : j ∈ idxs := by
        rcases List.mem_cons.mp hj with heq | hmem
        · exact absurd (heq ▸ hfire) hc
        · exact hmem
      simp only [List.foldl_cons]
      have hstep : burstStep k (bs, acc) i = (bs, acc) := by simp [burstStep, hc]
      rw [hstep]
      exact ih bs acc ⟨j, hji, hfire⟩

/-- C9, corrected: the outer loop of `burst` ranges over
`np.arange(len(burst_spike) - min_spikes)`, so only windows of `min_len`
consecutive inter-spike intervals starting at `i < len(isi) - min_len` —
windows that do not touch the last interval — are examined.  If no such
window is all below `min_isi`, `burst` returns the scalar tuple
`(0, 0, 0, 0)`; if one is, it returns arrays in which every reported
`burst_len` is at least `min_len + 1`. -/
theorem C9_burst_checked_windows (spiketrains : List (List ℚ)) (channel : ℕ)
    (min_isi : ℚ) (min_len : ℕ) (hmin : 1 ≤ min_len) :
    ((∀ i, i < (burstSpike (spiketrains.getD channel []) min_isi).length - min_len →
        windowSum (burstSpike (spiketrains.getD channel []) min_isi) i min_len ≠ min_len) →
      burst spiketrains channel min_isi min_len = BurstResult.zeros) ∧
    ((∃ i, i < (burstSpike (spiketrains.getD channel []) min_isi).length - min_len ∧
        windowSum (burstSpike (spiketrains.getD channel []) min_isi) i min_len = min_len) →
      ∃ a, burst spiketrains channel min_isi min_len = BurstResult.bursts a ∧
        ∀ l ∈ a.burst_len, min_len + 1 ≤ l) := by
  constructor
  · intro hno
    have hfold := burstFold_nofire min_len
      (List.range ((burstSpike (spiketrains.getD channel []) min_isi).length - min_len))
      (burstSpike (spiketrains.getD channel []) min_isi) []
      (fun i hi => hno i (List.mem_range.mp hi))
    have hq : burstScan min_len (burstSpike (spiketrains.getD channel []) min_isi) = [] := by
      unfold burstScan
      rw [hfold]
    simp only [burst]
    rw [hq]
    simp
  · intro hyes
    obtain ⟨i, hi, hfire⟩ := hyes
    have hq : burstScan min_len (burstSpike (spiketrains.getD channel []) min_isi) ≠ [] := by
      unfold burstScan
      exact burstFold_fire min_len _ _ [] ⟨i, List.mem_range.mpr hi, hfire⟩
    have hge : ∀ e ∈ burstScan min_len (burstSpike (spiketrains.getD channel []) min_isi),
        min_len ≤ e.2 :=
      burstFold_snd_ge min_len _ _ (by simp)
    set q := burstScan min_len (burstSpike (spiketrains.getD channel []) min_isi) with hqdef
    obtain ⟨hd, tl, hcons⟩ := List.exists_cons_of_ne_nil hq
    have hsum : (q.map (fun e => e.1 + e.2)).sum ≠ 0 := by
      have hhd : min_len ≤ hd.2 := hge hd (by rw [hcons]; exact List.mem_cons_self hd tl)
      rw [hcons]
      simp only [List.map_cons, List.sum_cons]
      omega
    refine ⟨⟨q.map (fun e => spiketrains.getD channel [] |>.getD e.1 0),
      q.map (fun e => (spiketrains.getD channel [] |>.getD (e.1 + e.2) 0) -
        (spiketrains.getD channel [] |>.getD e.1 0)),
      q.map (fun e => e.2 + 1),
      q.map (fun e => ((e.2 + 1 : ℕ) : ℚ) /
        ((spiketrains.getD channel [] |>.getD (e.1 + e.2) 0) -
          (spiketrains.getD channel [] |>.getD e.1 0)))⟩, ?_, ?_⟩
    · simp only [burst, ← hqdef]
      rw [if_neg hsum]
    · intro l hl
      simp only [List.mem_map] at hl
      obtain ⟨e, he, hle⟩ := hl
      have := hge e he
      omega

unseal Rat.sub Rat.add Rat.mul Rat.inv in
/-- Witness for C9 (corrected): on the train `0, 1/20, 1/10, 10` with
`min_isi = 1/10` and `min_len = 1`, a checked window fires and `burst`
returns arrays whose every `burst_len` is at least 2. -/
theorem C9_burst_checked_windows_witness :
    ∃ a, burst [[0, 1/20, 1/10, 10]] 0 (1/10) 1 = BurstResult.bursts a ∧
      ∀ l ∈ a.burst_len, 1 + 1 ≤ l :=
  (C9_burst_checked_windows [[0, 1/20, 1/10, 10]] 0 (1/10) 1 (le_refl 1)).2
    ⟨0, by decide, by decide⟩

unseal Rat.sub Rat.add Rat.mul Rat.inv in
/-- Counterexample to C9 as stated: on the train `0, 1, 21/20` with
`min_isi = 1/10` and `min_len = 1`, a window of one inter-spike interval at
most `min_isi` exists (the last interval, `1/20`), yet `burst` returns the
scalar tuple `(0, 0, 0, 0)` because the loop bound
`np.arange(len(burst_spike) - min_spikes)` never examines the window that
contains the last interval. -/
theorem C9_burst_as_stated_false :
    isiWindowExists [[0, 1, 21/20]] 0 (1/10) 1 = true ∧
    burst [[0, 1, 21/20]] 0 (1/10) 1 = BurstResult.zeros := by
  constructor
  · decide
  · decide

end MiV
